import Mathlib

/-!
Verification of the `todo-cli` task tracker (Rust sources under `src/`).

The development shallowly embeds the program:

* machine integers (`i64`, `usize`) are `Int`/`Nat` with explicit
  two's-complement conversion at the byte boundary and explicit wrapping
  (release-mode semantics) where arithmetic can overflow;
* a byte stream is a `List Nat` of byte values, consumed front to back;
* Rust `String`s inside a `Task` are their UTF-8 byte sequences
  (`List Nat`); prompt answers, which are only inspected by regular
  expressions and numeric parsers, are Lean `String`s;
* the `f32` arithmetic of the percent form of `parse_progress` is an exact
  rational model of IEEE-754 binary32 round-to-nearest-even (normal range);
* the regular expressions of the source are hand-translated matchers
  (each regex here is deterministic, so no backtracking is needed);
* fallible operations return `Except CliError` mirroring the source.
-/

namespace TodoCli

/-- The error enumeration `CliError` of src/main.rs. -/
inductive CliError where
  | ioErr : String → CliError
  | parse : String → CliError
  | input : String → CliError
  | taskNotFound : CliError
  | invalidCommand : CliError
  | invalidFileFormat : CliError
  | invalidArguments : CliError
  deriving DecidableEq

/-- The `Task` record of src/task.rs.  `name` and `description` hold the
UTF-8 bytes of the Rust strings. -/
structure Task where
  id : Int
  progress : Int
  deadline : Int
  estimated_time : Int
  name : List Nat
  description : List Nat
  deriving DecidableEq, Inhabited

/-- Big-endian byte list, `w` bytes, of `n` modulo `2^(8w)`
(Rust `to_be_bytes` on an unsigned value). -/
def toBeBytes : Nat → Nat → List Nat
  | 0, _ => []
  | w + 1, n => toBeBytes w (n / 256) ++ [n % 256]

/-- Unsigned value of a big-endian byte list (Rust `from_be_bytes`). -/
def fromBeBytes (l : List Nat) : Nat := l.foldl (fun a b => a * 256 + b) 0

/-- The unsigned 64-bit representative of an `i64` value
(two's complement). -/
def i64ToNat (x : Int) : Nat := (x % (2 : Int) ^ 64).toNat

/-- Read a 64-bit unsigned representative back as a signed `i64`. -/
def natToI64 (n : Nat) : Int :=
  if n < 2 ^ 63 then (n : Int) else (n : Int) - 2 ^ 64

/-- `read_exact` of `size` bytes from a stream, modelled as the list of
remaining bytes (the generic `read` helper of src/task.rs): fails when the
stream is short. -/
def readExact (size : Nat) (bs : List Nat) : Option (List Nat × List Nat) :=
  if size ≤ bs.length then some (bs.take size, bs.drop size) else none

/-- `read_i64` of src/task.rs: eight bytes, big-endian, signed. -/
def read_i64 (bs : List Nat) : Option (Int × List Nat) :=
  (readExact 8 bs).map fun p => (natToI64 (fromBeBytes p.1), p.2)

/-- `read_usize` of src/task.rs: eight bytes, big-endian (64-bit host,
see spec §9 on the length-prefix width). -/
def read_usize (bs : List Nat) : Option (Nat × List Nat) :=
  (readExact 8 bs).map fun p => (fromBeBytes p.1, p.2)

/-- Is `b` a UTF-8 continuation byte (`0x80`–`0xBF`)? -/
def isCont (b : Nat) : Bool := 0x80 ≤ b && b ≤ 0xBF

/-- UTF-8 validity of a byte sequence, the success condition of
`std::str::from_utf8` in `read_str` (src/task.rs). -/
def validUtf8 : List Nat → Bool
  | [] => true
  | b :: r =>
    if b ≤ 0x7F then validUtf8 r
    else if 0xC2 ≤ b && b ≤ 0xDF then
      match r with
      | c1 :: r1 => isCont c1 && validUtf8 r1
      | [] => false
    else if b = 0xE0 then
      match r with
      | c1 :: c2 :: r2 => (0xA0 ≤ c1 && c1 ≤ 0xBF) && isCont c2 && validUtf8 r2
      | _ => false
    else if (0xE1 ≤ b && b ≤ 0xEC) || b = 0xEE || b = 0xEF then
      match r with
      | c1 :: c2 :: r2 => isCont c1 && isCont c2 && validUtf8 r2
      | _ => false
    else if b = 0xED then
      match r with
      | c1 :: c2 :: r2 => (0x80 ≤ c1 && c1 ≤ 0x9F) && isCont c2 && validUtf8 r2
      | _ => false
    else if b = 0xF0 then
      match r with
      | c1 :: c2 :: c3 :: r3 =>
        (0x90 ≤ c1 && c1 ≤ 0xBF) && isCont c2 && isCont c3 && validUtf8 r3
      | _ => false
    else if 0xF1 ≤ b && b ≤ 0xF3 then
      match r with
      | c1 :: c2 :: c3 :: r3 => isCont c1 && isCont c2 && isCont c3 && validUtf8 r3
      | _ => false
    else if b = 0xF4 then
      match r with
      | c1 :: c2 :: c3 :: r3 =>
        (0x80 ≤ c1 && c1 ≤ 0x8F) && isCont c2 && isCont c3 && validUtf8 r3
      | _ => false
    else false

/-- `read_str` of src/task.rs: `size` bytes that must be valid UTF-8; the
resulting Rust `String` is modelled by its byte sequence. -/
def read_str (size : Nat) (bs : List Nat) : Option (List Nat × List Nat) :=
  match readExact size bs with
  | some (s, rest) => if validUtf8 s then some (s, rest) else none
  | none => none

/-- `Task::serialize` of src/task.rs: the four `i64` fields big-endian,
then the length-prefixed name bytes, then the length-prefixed description
bytes. -/
def Task.serialize (t : Task) : List Nat :=
  toBeBytes 8 (i64ToNat t.id) ++ toBeBytes 8 (i64ToNat t.progress) ++
  toBeBytes 8 (i64ToNat t.deadline) ++ toBeBytes 8 (i64ToNat t.estimated_time) ++
  toBeBytes 8 t.name.length ++ t.name ++
  toBeBytes 8 t.description.length ++ t.description

/-- `Task::from` of src/task.rs: decode one record from the stream,
returning the task and the remaining bytes. -/
def Task.fromBytes (bs : List Nat) : Option (Task × List Nat) := do
  let (id, bs) ← read_i64 bs
  let (progress, bs) ← read_i64 bs
  let (deadline, bs) ← read_i64 bs
  let (estimated_time, bs) ← read_i64 bs
  let (nameLen, bs) ← read_usize bs
  let (name, bs) ← read_str nameLen bs
  let (descLen, bs) ← read_usize bs
  let (description, bs) ← read_str descLen bs
  some (⟨id, progress, deadline, estimated_time, name, description⟩, bs)

/-- The record-reading loop of `read_tasks` (src/main.rs): decode records
until the stream position reaches the file size.  `fuel` bounds the
iteration count; any `fuel ≥ bs.length` behaves like the source loop,
since a successful decode consumes at least one byte. -/
def readLoop (fuel : Nat) (bs : List Nat) : Except CliError (List Task) :=
  match bs with
  | [] => .ok []
  | _ :: _ =>
    match fuel with
    | 0 => .error .invalidFileFormat
    | fuel + 1 =>
      match Task.fromBytes bs with
      | some (t, rest) =>
        match readLoop fuel rest with
        | .ok ts => .ok (t :: ts)
        | .error e => .error e
      | none => .error .invalidFileFormat

/-- `read_tasks` of src/main.rs: decode a whole file (given as its byte
contents) into a task list; any decode failure is `InvalidFileFormat`. -/
def read_tasks (bs : List Nat) : Except CliError (List Task) :=
  readLoop bs.length bs

/-- `save_tasks` of src/main.rs with `overwrite = true`: the bytes written
are the concatenation of the encodings, in order. -/
def save_tasks : List Task → List Nat
  | [] => []
  | t :: ts => t.serialize ++ save_tasks ts

/-- Range of `i64`. -/
def isI64 (x : Int) : Prop := -(2 : Int) ^ 63 ≤ x ∧ x < 2 ^ 63

instance (x : Int) : Decidable (isI64 x) :=
  inferInstanceAs (Decidable (-(2 : Int) ^ 63 ≤ x ∧ x < 2 ^ 63))

/-- A task representable by the Rust `Task` type: `i64` fields, strings
that are valid UTF-8, lengths representable as `usize`. -/
def Task.Valid (t : Task) : Prop :=
  isI64 t.id ∧ isI64 t.progress ∧ isI64 t.deadline ∧ isI64 t.estimated_time ∧
  validUtf8 t.name = true ∧ validUtf8 t.description = true ∧
  t.name.length < 2 ^ 64 ∧ t.description.length < 2 ^ 64

instance (t : Task) : Decidable t.Valid :=
  inferInstanceAs (Decidable (_ ∧ _ ∧ _ ∧ _ ∧ _ ∧ _ ∧ _ ∧ _))

/-! ### Codec lemmas -/

theorem toBeBytes_length (w n : Nat) : (toBeBytes w n).length = w := by
  induction w generalizing n with
  | zero => rfl
  | succ w ih => simp [toBeBytes, ih]

theorem fromBeBytes_toBeBytes (w n : Nat) :
    fromBeBytes (toBeBytes w n) = n % 256 ^ w := by
  induction w generalizing n with
  | zero => simp [toBeBytes, fromBeBytes, Nat.mod_one]
  | succ w ih =>
    have h : fromBeBytes (toBeBytes w (n / 256) ++ [n % 256]) =
        fromBeBytes (toBeBytes w (n / 256)) * 256 + n % 256 := by
      simp [fromBeBytes, List.foldl_append]
    rw [toBeBytes, h, ih]
    rw [pow_succ, mul_comm (256 ^ w) 256, Nat.mod_mul]
    ring

theorem readExact_append (n : Nat) (xs ys : List Nat) (h : xs.length = n) :
    readExact n (xs ++ ys) = some (xs, ys) := by
  subst h
  simp [readExact, List.take_left, List.drop_left]

theorem readExact_short (n : Nat) (bs : List Nat) (h : bs.length < n) :
    readExact n bs = none := by
  simp [readExact]
  omega

theorem read_i64_append (n : Nat) (rest : List Nat) :
    read_i64 (toBeBytes 8 n ++ rest) = some (natToI64 (n % 2 ^ 64), rest) := by
  have h256 : (256 : Nat) ^ 8 = 2 ^ 64 := by norm_num
  simp [read_i64, readExact_append 8 _ _ (toBeBytes_length 8 n),
    fromBeBytes_toBeBytes, h256]

theorem read_usize_append (n : Nat) (rest : List Nat) :
    read_usize (toBeBytes 8 n ++ rest) = some (n % 2 ^ 64, rest) := by
  have h256 : (256 : Nat) ^ 8 = 2 ^ 64 := by norm_num
  simp [read_usize, readExact_append 8 _ _ (toBeBytes_length 8 n),
    fromBeBytes_toBeBytes, h256]

theorem read_usize_short (bs : List Nat) (h : bs.length < 8) :
    read_usize bs = none := by
  simp [read_usize, readExact_short 8 bs h]

theorem read_str_append (s rest : List Nat) (h : validUtf8 s = true) :
    read_str s.length (s ++ rest) = some (s, rest) := by
  simp [read_str, readExact_append s.length s rest rfl, h]

theorem read_str_short (n : Nat) (bs : List Nat) (h : bs.length < n) :
    read_str n bs = none := by
  simp [read_str, readExact_short n bs h]

theorem natToI64_i64ToNat (x : Int) (h : isI64 x) :
    natToI64 (i64ToNat x % 2 ^ 64) = x := by
  obtain ⟨h1, h2⟩ := h
  simp only [natToI64, i64ToNat]
  split <;> omega

theorem serialize_length (t : Task) :
    t.serialize.length = 48 + t.name.length + t.description.length := by
  simp [Task.serialize, toBeBytes_length]
  ring

theorem serialize_ne_nil (t : Task) : t.serialize ≠ [] := by
  have h := serialize_length t
  intro hn
  rw [hn] at h
  simp at h
  omega

/-- Decoding inverts encoding, record by record, leaving trailing bytes
untouched. -/
theorem fromBytes_serialize (t : Task) (rest : List Nat) (h : t.Valid) :
    Task.fromBytes (t.serialize ++ rest) = some (t, rest) := by
  obtain ⟨hid, hpr, hdl, het, hnm, hds, hnl, hdsl⟩ := h
  have hn : t.name.length % 2 ^ 64 = t.name.length := Nat.mod_eq_of_lt hnl
  have hd : t.description.length % 2 ^ 64 = t.description.length :=
    Nat.mod_eq_of_lt hdsl
  simp only [Task.fromBytes, Task.serialize, List.append_assoc,
    read_i64_append, read_usize_append, natToI64_i64ToNat _ hid,
    natToI64_i64ToNat _ hpr, natToI64_i64ToNat _ hdl, natToI64_i64ToNat _ het,
    hn, hd, read_str_append _ _ hnm, read_str_append _ _ hds,
    Option.bind_eq_bind, Option.some_bind]

theorem readLoop_nil (fuel : Nat) : readLoop fuel [] = .ok [] := by
  cases fuel <;> rfl

theorem readLoop_cons (fuel : Nat) (bs : List Nat) (h : bs ≠ []) :
    readLoop (fuel + 1) bs =
      match Task.fromBytes bs with
      | some (t, rest) =>
        match readLoop fuel rest with
        | .ok ts => .ok (t :: ts)
        | .error e => .error e
      | none => .error .invalidFileFormat := by
  cases bs with
  | nil => exact absurd rfl h
  | cons b l => rfl

theorem readLoop_zero (bs : List Nat) (h : bs ≠ []) :
    readLoop 0 bs = .error .invalidFileFormat := by
  cases bs with
  | nil => exact absurd rfl h
  | cons b l => rfl

theorem save_tasks_cons (t : Task) (ts : List Task) :
    save_tasks (t :: ts) = t.serialize ++ save_tasks ts := rfl

theorem readLoop_save_tasks (L : List Task) (h : ∀ t ∈ L, t.Valid) :
    ∀ fuel, (save_tasks L).length ≤ fuel →
      readLoop fuel (save_tasks L) = .ok L := by
  induction L with
  | nil => intro fuel _; exact readLoop_nil fuel
  | cons t ts ih =>
    intro fuel hfuel
    have hlen : 48 ≤ t.serialize.length := by
      rw [serialize_length]; omega
    have hne : save_tasks (t :: ts) ≠ [] := by
      rw [save_tasks_cons]
      intro hn
      exact serialize_ne_nil t (List.append_eq_nil.mp hn).1
    cases fuel with
    | zero =>
      exfalso
      rw [save_tasks_cons, List.length_append] at hfuel
      omega
    | succ fuel =>
      rw [save_tasks_cons] at hne ⊢
      rw [readLoop_cons fuel _ hne,
        fromBytes_serialize t _ (h t (List.mem_cons_self t ts))]
      have hts : (save_tasks ts).length ≤ fuel := by
        rw [save_tasks_cons, List.length_append] at hfuel
        omega
      simp only [ih (fun u hu => h u (List.mem_cons_of_mem t hu)) fuel hts]

/-- Load inverts save-all. -/
theorem read_tasks_save_tasks (L : List Task) (h : ∀ t ∈ L, t.Valid) :
    read_tasks (save_tasks L) = .ok L :=
  readLoop_save_tasks L h _ le_rfl

/-! ### Truncation makes decoding fail -/

theorem ne_nil_append_right (a b : List Nat) (h : b ≠ []) : a ++ b ≠ [] :=
  fun hn => h (List.append_eq_nil.mp hn).2

theorem ne_nil_append_left (a b : List Nat) (h : a ≠ []) : a ++ b ≠ [] :=
  fun hn => h (List.append_eq_nil.mp hn).1

theorem toBeBytes_ne_nil (n : Nat) : toBeBytes 8 n ≠ [] := by
  intro h
  have := toBeBytes_length 8 n
  rw [h] at this
  simp at this

/-- Dropping the final byte of an encoded record makes its decode fail:
the last byte always belongs to the description bytes (when nonempty) or
to the description length prefix (when empty), so the corresponding read
runs short. -/
theorem fromBytes_serialize_dropLast (t : Task) (h : t.Valid) :
    Task.fromBytes t.serialize.dropLast = none := by
  obtain ⟨hid, hpr, hdl, het, hnm, hds, hnl, hdsl⟩ := h
  have hn : t.name.length % 2 ^ 64 = t.name.length := Nat.mod_eq_of_lt hnl
  have hd : t.description.length % 2 ^ 64 = t.description.length :=
    Nat.mod_eq_of_lt hdsl
  by_cases hdesc : t.description = []
  · rw [Task.serialize, hdesc]
    simp only [List.append_nil]
    have h7 : toBeBytes 8 ([] : List Nat).length ≠ [] := toBeBytes_ne_nil _
    rw [List.dropLast_append_of_ne_nil _ h7]
    have hshort : (toBeBytes 8 ([] : List Nat).length).dropLast.length < 8 := by
      rw [List.length_dropLast, toBeBytes_length]
      omega
    simp only [Task.fromBytes, List.append_assoc, read_i64_append,
      read_usize_append, natToI64_i64ToNat _ hid, natToI64_i64ToNat _ hpr,
      natToI64_i64ToNat _ hdl, natToI64_i64ToNat _ het, hn,
      read_str_append _ _ hnm, read_usize_short _ hshort,
      Option.bind_eq_bind, Option.some_bind, Option.none_bind]
  · rw [Task.serialize]
    have hdesc' : t.description ≠ [] := hdesc
    rw [List.dropLast_append_of_ne_nil _ hdesc']
    have hshort : t.description.dropLast.length < t.description.length := by
      rw [List.length_dropLast]
      have : 0 < t.description.length := List.length_pos.mpr hdesc'
      omega
    simp only [Task.fromBytes, List.append_assoc, read_i64_append,
      read_usize_append, natToI64_i64ToNat _ hid, natToI64_i64ToNat _ hpr,
      natToI64_i64ToNat _ hdl, natToI64_i64ToNat _ het, hn, hd,
      read_str_append _ _ hnm, read_str_short _ _ hshort,
      Option.bind_eq_bind, Option.some_bind, Option.none_bind]

theorem save_tasks_ne_nil (L : List Task) (h : L ≠ []) : save_tasks L ≠ [] := by
  cases L with
  | nil => exact absurd rfl h
  | cons t ts => exact ne_nil_append_left _ _ (serialize_ne_nil t)

theorem readLoop_dropLast (L : List Task) (hne : L ≠ []) (h : ∀ t ∈ L, t.Valid) :
    ∀ fuel, readLoop fuel ((save_tasks L).dropLast) = .error .invalidFileFormat := by
  induction L with
  | nil => exact absurd rfl hne
  | cons t ts ih =>
    intro fuel
    by_cases hts : ts = []
    · subst hts
      have hser : save_tasks [t] = t.serialize := by
        rw [save_tasks_cons]
        simp [save_tasks]
      rw [hser]
      have hlen : 48 ≤ t.serialize.length := by rw [serialize_length]; omega
      have hne' : t.serialize.dropLast ≠ [] := by
        rw [← List.length_pos, List.length_dropLast]
        omega
      cases fuel with
      | zero => exact readLoop_zero _ hne'
      | succ fuel =>
        rw [readLoop_cons fuel _ hne',
          fromBytes_serialize_dropLast t (h t (List.mem_cons_self t []))]
    · rw [save_tasks_cons,
        List.dropLast_append_of_ne_nil _ (save_tasks_ne_nil ts hts)]
      have hne' : t.serialize ++ (save_tasks ts).dropLast ≠ [] :=
        ne_nil_append_left _ _ (serialize_ne_nil t)
      cases fuel with
      | zero => exact readLoop_zero _ hne'
      | succ fuel =>
        rw [readLoop_cons fuel _ hne',
          fromBytes_serialize t _ (h t (List.mem_cons_self t ts))]
        simp only [ih hts (fun u hu => h u (List.mem_cons_of_mem t hu)) fuel]

/-- C7: decoding the byte sequence produced by encoding a valid task
yields the task back (with nothing left over), and loading the file
written by save-all of a list of valid tasks yields the same list in the
same order. -/
theorem c7_roundtrip :
    (∀ t : Task, t.Valid → Task.fromBytes t.serialize = some (t, [])) ∧
    (∀ L : List Task, (∀ t ∈ L, t.Valid) →
      read_tasks (save_tasks L) = .ok L) := by
  constructor
  · intro t h
    have := fromBytes_serialize t [] h
    rwa [List.append_nil] at this
  · exact read_tasks_save_tasks

theorem c7_roundtrip_witness :
    (Task.Valid ⟨1, 2, 3, 4, [104, 105], [33]⟩) ∧
    Task.fromBytes (Task.serialize ⟨1, 2, 3, 4, [104, 105], [33]⟩) =
      some (⟨1, 2, 3, 4, [104, 105], [33]⟩, []) ∧
    read_tasks (save_tasks [⟨1, 2, 3, 4, [104, 105], [33]⟩]) =
      .ok [⟨1, 2, 3, 4, [104, 105], [33]⟩] :=
  ⟨by decide,
   c7_roundtrip.1 ⟨1, 2, 3, 4, [104, 105], [33]⟩ (by decide),
   c7_roundtrip.2 [⟨1, 2, 3, 4, [104, 105], [33]⟩] (by decide)⟩

/-- C8: truncating the encoding of a nonempty valid task list by one byte
makes load fail with the corrupt-file error (`InvalidFileFormat` in the
source); since the result is an error, no partial task list is returned.
(Loading only ever opens the file read-only, so the model is a pure
function of the contents.) -/
theorem c8_truncated_load_fails (L : List Task) (hne : L ≠ [])
    (h : ∀ t ∈ L, t.Valid) :
    read_tasks ((save_tasks L).dropLast) = .error CliError.invalidFileFormat :=
  readLoop_dropLast L hne h _

theorem c8_truncated_load_fails_witness :
    ([(⟨7, 0, 9, 60, [97], [98, 99]⟩ : Task)] ≠ []) ∧
    (∀ t ∈ [(⟨7, 0, 9, 60, [97], [98, 99]⟩ : Task)], t.Valid) ∧
    read_tasks ((save_tasks [(⟨7, 0, 9, 60, [97], [98, 99]⟩ : Task)]).dropLast) =
      .error CliError.invalidFileFormat :=
  ⟨by decide, by decide,
   c8_truncated_load_fails [⟨7, 0, 9, 60, [97], [98, 99]⟩] (by decide) (by decide)⟩

instance {ε α : Type} [DecidableEq ε] [DecidableEq α] :
    DecidableEq (Except ε α) := fun x y =>
  match x, y with
  | .ok a, .ok b =>
    if h : a = b then isTrue (by rw [h])
    else isFalse (by intro hc; cases hc; exact h rfl)
  | .error a, .error b =>
    if h : a = b then isTrue (by rw [h])
    else isFalse (by intro hc; cases hc; exact h rfl)
  | .ok _, .error _ => isFalse (by intro hc; cases hc)
  | .error _, .ok _ => isFalse (by intro hc; cases hc)

/-! ### Machine arithmetic and numeric parsing -/

/-- Wrap an integer into `i64` range (release-mode two's-complement
overflow semantics). -/
def wrap64 (x : Int) : Int := (x + 2 ^ 63) % 2 ^ 64 - 2 ^ 63

/-- `i64` addition. -/
def i64add (a b : Int) : Int := wrap64 (a + b)

/-- `i64` multiplication. -/
def i64mul (a b : Int) : Int := wrap64 (a * b)

theorem wrap64_eq_self (x : Int) (h : isI64 x) : wrap64 x = x := by
  obtain ⟨h1, h2⟩ := h
  unfold wrap64
  omega

/-- Numeric value of a digit string. -/
def digitVal (s : String) : Nat :=
  s.toList.foldl (fun a c => a * 10 + (c.toNat - 48)) 0

/-- `str::parse::<i64>` on the digit-only strings captured by the
regexes here: fails exactly when the value overflows `i64`. -/
def parseI64? (s : String) : Option Int :=
  if s.toList ≠ [] ∧ s.toList.all Char.isDigit then
    if digitVal s ≤ 2 ^ 63 - 1 then some (digitVal s) else none
  else none

/-- The numeric contribution of one optional captured duration group in
`parse_progress`:
`caps.get(i).map_or(0, |m| m.as_str().parse::<i64>().unwrap_or(0))`. -/
def groupVal (g : Option String) : Int := (g.bind parseI64?).getD 0

/-! ### Regular-expression capture models -/

/-- Match one optional component `(?:(\d+)x\s*)?` of the duration regular
expression at the front of the input: a nonempty digit run followed by the
unit letter `x` is consumed (with trailing whitespace when `ws` is set)
and captured; otherwise nothing is consumed.  The duration regex is
deterministic (after a digit run the next character decides the unit), so
this local choice agrees with the regex engine. -/
def durComponent (x : Char) (ws : Bool) (s : List Char) :
    Option String × List Char :=
  match s.takeWhile Char.isDigit, s.dropWhile Char.isDigit with
  | _ :: _, c :: rest2 =>
    if c = x then
      (some (String.mk (s.takeWhile Char.isDigit)),
       if ws then rest2.dropWhile Char.isWhitespace else rest2)
    else (none, s)
  | _, _ => (none, s)

/-- Captures of the duration regex
`^(?:(\d+)h\s*)?(?:(\d+)m\s*)?(?:(\d+)s)?$`. -/
def timeCaptures (s : String) :
    Option (Option String × Option String × Option String) :=
  let (g1, s1) := durComponent 'h' true s.toList
  let (g2, s2) := durComponent 'm' true s1
  let (g3, s3) := durComponent 's' false s2
  if s3 = [] then some (g1, g2, g3) else none

/-- Captures of the percent regex `^(\d+)%$`. -/
def percentCaptures (s : String) : Option String :=
  let ds := s.toList.takeWhile Char.isDigit
  let rest := s.toList.dropWhile Char.isDigit
  if ds ≠ [] ∧ rest = ['%'] then some (String.mk ds) else none

/-- The capture of the regex `(.*)` applied to a single-line (already
trimmed by `query`) prompt answer: group 1 always participates and
captures the whole line, so the capture is never absent. -/
def anyCaptures (s : String) : Option String := some s

/-- Rust `str::trim` on a character list. -/
def trimChars (l : List Char) : List Char :=
  ((l.dropWhile Char.isWhitespace).reverse.dropWhile Char.isWhitespace).reverse

/-- Rust `s.trim().is_empty()` for a prompt answer. -/
def trimEmpty (s : String) : Bool := (trimChars s.toList).isEmpty

/-- Match a character shape at the front of the input: `d` in the mask
matches any ASCII digit, any other mask character matches itself. -/
def matchMask : List Char → List Char → Option (List Char × List Char)
  | [], rest => some ([], rest)
  | _ :: _, [] => none
  | m :: ms, c :: cs =>
    if (if m = 'd' then c.isDigit else c = m) then
      (matchMask ms cs).map fun p => (c :: p.1, p.2)
    else none

/-- Captures of the edit-flow due regex
`^(?:(\d{4}-\d{2}-\d{2})(?: (\d{2}:\d{2}:\d{2}))?|(\d{2}:\d{2}:\d{2}))?$`:
group 1 the date, group 2 the time after a date, group 3 a bare time.
The alternatives cannot match the same input (the third character is a
digit in one and `:` in the other), so no backtracking is needed; the
trailing `?` lets the empty input match with all groups absent. -/
def dueCapturesEdit (s : String) :
    Option (Option String × Option String × Option String) :=
  match matchMask ("dddd-dd-dd".toList) s.toList with
  | some (date, rest) =>
    match rest with
    | [] => some (some (String.mk date), none, none)
    | ' ' :: rest2 =>
      match matchMask ("dd:dd:dd".toList) rest2 with
      | some (time, []) =>
        some (some (String.mk date), some (String.mk time), none)
      | _ => none
    | _ => none
  | none =>
    match matchMask ("dd:dd:dd".toList) s.toList with
    | some (time, []) => some (none, none, some (String.mk time))
    | _ => if s.toList = [] then some (none, none, none) else none

/-! ### Exact model of the `f32` percent arithmetic

Binary32 values are represented exactly as `m · 2^e`.  The model ignores
the overflow and subnormal thresholds: every concrete evaluation below
stays in the normal range, and in the universal statements only the
saturating `as i64` cast of the result is inspected, which agrees with
the real semantics for out-of-range magnitudes (both exceed `2^63`). -/

structure F32 where
  m : Int
  e : Int
  deriving DecidableEq

/-- Round `a / b` (`b > 0`) to the nearest integer, ties to even. -/
def rneDiv (a b : Int) : Int :=
  if 2 * (a % b) < b then a / b
  else if b < 2 * (a % b) then a / b + 1
  else if (a / b) % 2 = 0 then a / b else a / b + 1

/-- Half-away-from-zero rounding of `a / b` for `a ≥ 0 < b`, the behavior
of Rust `f32::round` on an exact nonnegative value. -/
def rhaNonneg (a b : Int) : Int :=
  if b ≤ 2 * (a % b) then a / b + 1 else a / b

/-- Half-away-from-zero rounding of the fraction `a / b` (`b > 0`). -/
def roundHalfAwayRat (a b : Int) : Int :=
  if 0 ≤ a then rhaNonneg a b else -(rhaNonneg (-a) b)

/-- Is `a / b < c · 2^e` (`b > 0`)? -/
def fracLtPow (a b c : Nat) (e : Int) : Bool :=
  if 0 ≤ e then a < c * b * 2 ^ e.toNat else a * 2 ^ (-e).toNat < c * b

/-- Find the binary exponent placing `a/b` in `[2^23 · 2^e, 2^24 · 2^e)`.
The fuel covers every magnitude the pipeline can produce. -/
def findExp (fuel : Nat) (a b : Nat) (e : Int) : Int :=
  match fuel with
  | 0 => e
  | fuel + 1 =>
    if fracLtPow a b (2 ^ 23) e then findExp fuel a b (e - 1)
    else if !fracLtPow a b (2 ^ 24) e then findExp fuel a b (e + 1)
    else e

/-- Correctly round the rational `n / d` (`d > 0`) to binary32
(round-to-nearest, ties-to-even). -/
def roundF32 (n : Int) (d : Nat) : F32 :=
  if n = 0 then ⟨0, 0⟩
  else
    let a := n.natAbs
    let e := findExp 300 a d 0
    let nd : Nat × Nat :=
      if 0 ≤ e then (a, d * 2 ^ e.toNat) else (a * 2 ^ (-e).toNat, d)
    ⟨(if n < 0 then -1 else 1) * rneDiv nd.1 nd.2, e⟩

/-- Numerator of the exact value of an `F32`. -/
def F32.num (v : F32) : Int := if 0 ≤ v.e then v.m * 2 ^ v.e.toNat else v.m

/-- Denominator of the exact value of an `F32`. -/
def F32.den (v : F32) : Nat := if 0 ≤ v.e then 1 else 2 ^ (-v.e).toNat

/-- `v` equals the rational `a / b` exactly (`b > 0` expected). -/
def F32.eqFrac (v : F32) (a : Int) (b : Nat) : Prop :=
  v.num * b = a * (v.den : Int)

instance (v : F32) (a : Int) (b : Nat) : Decidable (v.eqFrac a b) :=
  inferInstanceAs (Decidable (_ = _))

/-- `x as f32` for an integer `x`. -/
def f32FromInt (x : Int) : F32 := roundF32 x 1

/-- f32 multiplication (correctly rounded). -/
def f32mul (u v : F32) : F32 := roundF32 (u.num * v.num) (u.den * v.den)

/-- f32 division by a positive integer constant (correctly rounded);
`percent / 100.0` in the source. -/
def f32divNat (u : F32) (d : Nat) : F32 := roundF32 u.num (u.den * d)

/-- Rust `f32::round` applied to the exact value. -/
def f32round (v : F32) : Int := roundHalfAwayRat v.num v.den

/-- Rust saturating `as i64` cast of an integral float value. -/
def f32toI64 (n : Int) : Int := max (-(2 ^ 63)) (min (2 ^ 63 - 1) n)

/-- `str::parse::<f32>` on the digit strings captured by the percent
regex: the decimal value correctly rounded to binary32 (such a parse
never fails; huge values overflow to infinity in Rust, which the
saturating cast makes indistinguishable from this model's huge finite
values). -/
def parseF32? (s : String) : Option F32 :=
  if s.toList ≠ [] ∧ s.toList.all Char.isDigit then
    some (f32FromInt (digitVal s))
  else none

/-- `parse_progress` of src/main.rs: the duration form (each captured
group parsed with `unwrap_or(0)`), else the percent form
(`(task.estimated_time as f32 * (percent / 100.0)).round() as i64`),
else an invalid-format error. -/
def parse_progress (input : String) (task : Task) : Except CliError Int :=
  match timeCaptures input with
  | some (g1, g2, g3) =>
    .ok (i64add (i64add (i64mul (groupVal g1) 3600) (i64mul (groupVal g2) 60))
      (groupVal g3))
  | none =>
    match percentCaptures input with
    | some p =>
      match parseF32? p with
      | some pf =>
        .ok (f32toI64 (f32round (f32mul (f32FromInt task.estimated_time)
          (f32divNat pf 100))))
      | none => .error (.parse "Invalid percentage")
    | none => .error (.input "Invalid progress format")

/-! ### Prompt validators (pure functions from captured groups) -/

/-- Dates as parsed by `chrono::NaiveDate`. -/
structure NaiveDate where
  year : Nat
  month : Nat
  day : Nat
  deriving DecidableEq

/-- Times of day as parsed by `chrono::NaiveTime`. -/
structure NaiveTime where
  hour : Nat
  minute : Nat
  second : Nat
  deriving DecidableEq

/-- The chrono facts and conversions the due-date validators use:
`Local::now()`'s date and time, `parse_from_str` for the two formats, and
`NaiveDateTime::and_local_timezone(Local).timestamp()`.  These live in the
external `chrono` crate and are modelled as an abstract environment. -/
structure ChronoEnv where
  today : NaiveDate
  now_time : NaiveTime
  parse_date : String → Option NaiveDate
  parse_time : String → Option NaiveTime
  toTimestamp : NaiveDate → NaiveTime → Int

/-- The due-date validator of the edit flow (src/main.rs, inside
`handle_edit`): when group 1 is absent or blank the original deadline is
kept; otherwise the date comes from group 1 (or today), the time from
group 2, else group 3, else now, and the pair is converted to a
timestamp.  Note the guard inspects only group 1, so it also fires for a
time-only answer, where group 1 is absent but group 3 is present. -/
def editDueValidator (env : ChronoEnv) (original_deadline : Int)
    (v0 v1 v2 : Option String) : Except CliError Int :=
  if (v0.map (fun s => trimEmpty s)).getD true then .ok original_deadline
  else
    match (match v0 with
           | some date => env.parse_date date
           | none => some env.today) with
    | none => .error (.input "Invalid date format")
    | some date =>
      match (match v1 with
             | some time => env.parse_time time
             | none =>
               match v2 with
               | some time => env.parse_time time
               | none => some env.now_time) with
      | none => .error (.input "Invalid time format")
      | some time => .ok (env.toTimestamp date time)

/-- The name validator of the add flow (src/main.rs, inside
`handle_add`): `Ok(v[0].clone().ok_or(Input("Name cannot be empty"))?)`. -/
def addNameValidator (v0 : Option String) : Except CliError String :=
  match v0 with
  | some s => .ok s
  | none => .error (.input "Name cannot be empty")

/-- The description validator of the add flow. -/
def addDescriptionValidator (v0 : Option String) : Except CliError String :=
  match v0 with
  | some s => .ok s
  | none => .error (.input "Description cannot be empty")

/-- The name validator of the edit flow: blank input keeps the prior
name, otherwise the trimmed input replaces it. -/
def editNameValidator (original : String) (v0 : Option String) :
    Except CliError String :=
  let inp := v0.getD ""
  if trimEmpty inp then .ok original else .ok (String.mk (trimChars inp.toList))

/-- The description validator of the edit flow. -/
def editDescriptionValidator (original : String) (v0 : Option String) :
    Except CliError String :=
  let inp := v0.getD ""
  if trimEmpty inp then .ok original else .ok (String.mk (trimChars inp.toList))

/-- The estimated-time validator of the add flow: each captured group
defaults to `"0"`, a failed `i64` conversion is a `Parse` error, and the
value is `h·3600 + m·60 + s` in `i64` arithmetic. -/
def addEstimatedValidator (v0 v1 v2 : Option String) : Except CliError Int :=
  match parseI64? (v0.getD "0") with
  | none => .error (.parse "Invalid hours")
  | some h =>
    match parseI64? (v1.getD "0") with
    | none => .error (.parse "Invalid minutes")
    | some m =>
      match parseI64? (v2.getD "0") with
      | none => .error (.parse "Invalid seconds")
      | some s => .ok (i64add (i64add (i64mul h 3600) (i64mul m 60)) s)

/-- The estimated-time validator of the edit flow: an absent or blank
group 1 keeps the original value (group 1 is also absent for inputs such
as `"30m"`); the non-blank branch is textually the add-flow
computation. -/
def editEstimatedValidator (original : Int) (v0 v1 v2 : Option String) :
    Except CliError Int :=
  if (v0.map (fun s => trimEmpty s)).getD true then .ok original
  else addEstimatedValidator v0 v1 v2

/-! ### Store operations -/

/-- Maximum stored id, or −1
(`iter().map(|t| t.id()).max().unwrap_or(-1)`). -/
def maxIdOr (tasks : List Task) : Int := ((tasks.map Task.id).max?).getD (-1)

/-- `handle_add` (src/main.rs): the new task gets id `max_id + 1` —
computed in wrapping `i64` arithmetic, like every other `i64` operation
here — progress 0, and the validated prompt answers for the other
fields; its record is appended to the store. -/
def handle_add (tasks : List Task) (deadline estimated_time : Int)
    (name description : List Nat) : List Task :=
  tasks ++ [{ id := i64add (maxIdOr tasks) 1, progress := 0,
              deadline := deadline, estimated_time := estimated_time,
              name := name, description := description }]

/-- Rust `Iterator::position`: index of the first element satisfying the
predicate. -/
def position? (p : Task → Bool) : List Task → Option Nat
  | [] => none
  | x :: xs => if p x then some 0 else (position? p xs).map (· + 1)

/-- Rust `Vec::swap_remove`: replace index `i` with the last element and
pop (callers guarantee `i < l.length`). -/
def swapRemove (l : List Task) (i : Nat) : List Task :=
  match l.getLast? with
  | none => []
  | some x => (l.set i x).dropLast

/-- `handle_remove` (src/main.rs): drop the task with the given id via
`swap_remove`, or fail with `TaskNotFound`. -/
def handle_remove (tasks : List Task) (target_id : Int) :
    Except CliError (List Task) :=
  match position? (fun t => t.id == target_id) tasks with
  | some i => .ok (swapRemove tasks i)
  | none => .error .taskNotFound

/-- `handle_progress` (src/main.rs): resolve the amount against the task,
add it to `progress`, and remove the task (`Vec::remove`, order
preserving) exactly when the new `progress ≥ estimated_time`. -/
def handle_progress (tasks : List Task) (target_id : Int) (amount : String) :
    Except CliError (List Task) :=
  match position? (fun t => t.id == target_id) tasks with
  | none => .error .taskNotFound
  | some i =>
    match tasks.get? i with
    | none => .error .taskNotFound   -- unreachable: `position?` yields a valid index
    | some t =>
      match parse_progress amount t with
      | .error e => .error e
      | .ok progress_made =>
        let t' := { t with progress := i64add t.progress progress_made }
        if t'.estimated_time ≤ t'.progress then .ok ((tasks.set i t').eraseIdx i)
        else .ok (tasks.set i t')

/-- `handle_edit` (src/main.rs): replace the four editable fields with
the validated prompt answers (id and progress are untouched); no
completion check is performed. -/
def handle_edit (tasks : List Task) (target_id : Int)
    (deadline estimated_time : Int) (name description : List Nat) :
    Except CliError (List Task) :=
  match position? (fun t => t.id == target_id) tasks with
  | none => .error .taskNotFound
  | some i =>
    match tasks.get? i with
    | none => .error .taskNotFound
    | some t =>
      .ok (tasks.set i { t with deadline := deadline,
                                estimated_time := estimated_time,
                                name := name, description := description })

/-- `Task::get_time_left` (src/task.rs): `deadline - Local::now()`. -/
def Task.get_time_left (t : Task) (now : Int) : Int := t.deadline - now

/-- The comparator of `handle_list`'s `sort_by`, as a `≤` test:
`time_left` ascending, ties broken by id ascending. -/
def listLe (now : Int) (a b : Task) : Bool :=
  decide (a.get_time_left now < b.get_time_left now) ||
  (decide (a.get_time_left now = b.get_time_left now) && decide (a.id ≤ b.id))

/-- Insertion step of the sort model. -/
def sortInsert (now : Int) (t : Task) : List Task → List Task
  | [] => [t]
  | x :: xs => if listLe now x t then x :: sortInsert now t xs else t :: x :: xs

/-- A model of `Vec::sort_by` with the `handle_list` comparator (the
comparator is a total order whenever ids are distinct, so any correct
sort produces this list). -/
def sortTasks (now : Int) : List Task → List Task
  | [] => []
  | t :: ts => sortInsert now t (sortTasks now ts)

/-- `handle_list` (src/main.rs): read the store, sort a local copy — and
then iterate a freshly re-read (hence unsorted) list for printing.  The
result is the sequence of tasks as printed. -/
def handle_list (contents : List Nat) (now : Int) :
    Except CliError (List Task) :=
  match read_tasks contents with
  | .error e => .error e
  | .ok tasks =>
    let _sorted := sortTasks now tasks
    match read_tasks contents with
    | .error e => .error e
    | .ok printed => .ok printed

/-! ### Claim theorems C1–C4 -/

/-- C1: the claim says `list` prints the loaded tasks sorted by
`deadline − now` (ties by id).  The code sorts a local vector but then
prints a freshly re-read, unsorted list: on a store holding id 0 with
deadline 100 and id 1 with deadline 50 (now = 0), the printed sequence is
the file order `[0, 1]`, while the sorted order is `[1, 0]`. -/
theorem c1_list_prints_unsorted :
    handle_list (save_tasks [⟨0, 0, 100, 10, [], []⟩, ⟨1, 0, 50, 10, [], []⟩]) 0 =
      .ok [⟨0, 0, 100, 10, [], []⟩, ⟨1, 0, 50, 10, [], []⟩] ∧
    sortTasks 0 [⟨0, 0, 100, 10, [], []⟩, ⟨1, 0, 50, 10, [], []⟩] =
      [⟨1, 0, 50, 10, [], []⟩, ⟨0, 0, 100, 10, [], []⟩] ∧
    ([(⟨0, 0, 100, 10, [], []⟩ : Task), ⟨1, 0, 50, 10, [], []⟩] ≠
      [(⟨1, 0, 50, 10, [], []⟩ : Task), ⟨0, 0, 100, 10, [], []⟩]) :=
  ⟨by set_option maxRecDepth 4000 in decide, by decide, by decide⟩

/-- C2: the claim says every stored task satisfies
`progress < estimated_time` and any operation crossing the threshold
removes the task.  The code enforces this only in `handle_progress`:
`add` accepts an empty duration (value 0) and stores a task with
`progress = estimated_time = 0`, and `edit` can lower `estimated_time`
to 3600 on a task with `progress = 7200` without removing it. -/
theorem c2_invariant_violated_by_add_and_edit :
    (timeCaptures "" = some (none, none, none) ∧
     addEstimatedValidator none none none = .ok 0 ∧
     handle_add [] 0 0 [65] [66] = [⟨0, 0, 0, 0, [65], [66]⟩] ∧
     ∃ t ∈ handle_add [] 0 0 [65] [66], t.estimated_time ≤ t.progress) ∧
    (timeCaptures "1h" = some (some "1", none, none) ∧
     editEstimatedValidator 10800 (some "1") none none = .ok 3600 ∧
     handle_edit [⟨0, 7200, 0, 10800, [], []⟩] 0 0 3600 [] [] =
       .ok [⟨0, 7200, 0, 3600, [], []⟩] ∧
     ∃ t ∈ [(⟨0, 7200, 0, 3600, [], []⟩ : Task)],
       t.estimated_time ≤ t.progress) := by
  exact ⟨⟨by decide, by decide, by decide, by decide⟩,
         ⟨by decide, by decide, by decide, by decide⟩⟩

/-- A concrete instance of the abstract chrono environment, used to
evaluate the due-date validator at a failing input. -/
def testEnv : ChronoEnv where
  today := ⟨2026, 10, 12⟩
  now_time := ⟨0, 0, 0⟩
  parse_date := fun _ => none
  parse_time := fun s => if s = "12:34:56" then some ⟨12, 34, 56⟩ else none
  toTimestamp := fun d t =>
    ((((d.year * 13 + d.month) * 32 + d.day) * 24 + t.hour) * 60 +
      t.minute) * 60 + t.second

/-- C3: the claim says a time-only answer in the edit due prompt yields
today's date combined with that time, the prior deadline being kept only
on empty input.  The validator's keep-prior guard inspects only group 1,
which is also absent for a time-only answer: on captures
`(none, none, some "12:34:56")` it returns the original deadline (0)
instead of `toTimestamp today 12:34:56` (which differs from 0 in the test
environment).  Empty input does keep the prior value. -/
theorem c3_edit_due_time_only_keeps_prior :
    dueCapturesEdit "12:34:56" = some (none, none, some "12:34:56") ∧
    editDueValidator testEnv 0 none none (some "12:34:56") = .ok 0 ∧
    testEnv.toTimestamp testEnv.today ⟨12, 34, 56⟩ ≠ 0 ∧
    editDueValidator testEnv 0 none none none = .ok 0 :=
  ⟨by decide, by decide, by decide, by decide⟩

/-- C4: the claim says the add flow rejects an empty (after trim) name or
description with an error.  `query` matches the trimmed line against
`(.*)`, whose group 1 always participates, so the captured value is
`some ""` and the `ok_or(Input("… cannot be empty"))` can never fire: the
empty name and description are accepted.  (The edit flow does keep the
prior value on blank input, as claimed.) -/
theorem c4_add_accepts_empty_name_description :
    anyCaptures "" = some "" ∧
    addNameValidator (anyCaptures "") = .ok "" ∧
    addDescriptionValidator (anyCaptures "") = .ok "" ∧
    editNameValidator "keep" (anyCaptures "") = .ok "keep" ∧
    editDescriptionValidator "kept" (anyCaptures "") = .ok "kept" :=
  ⟨by decide, by decide, by decide, by decide, by decide⟩

/-! ### Claim C5: the duration form of `parse_progress` -/

theorem groupVal_bounds (g : Option String) :
    0 ≤ groupVal g ∧ groupVal g ≤ 2 ^ 63 - 1 := by
  unfold groupVal parseI64?
  cases g with
  | none => simp
  | some s =>
    simp only [Option.some_bind]
    split
    · split
      · rename_i hle
        constructor
        · simp [Int.ofNat_nonneg]
        · simpa using Int.ofNat_le.mpr hle
      · simp
    · simp

/-- C5 (amended): for every input matched by the duration regex, the
progress amount is `h·3600 + m·60 + s` computed in `i64` arithmetic with
each group's failed `i64` conversion contributing 0 (the source uses
`unwrap_or(0)`, not a `Parse` error); when the exact combination fits in
`i64` it equals the exact `h·3600 + m·60 + s`. -/
theorem c5_duration_value (task : Task) (input : String)
    (g1 g2 g3 : Option String)
    (h : timeCaptures input = some (g1, g2, g3)) :
    parse_progress input task =
      .ok (i64add (i64add (i64mul (groupVal g1) 3600) (i64mul (groupVal g2) 60))
        (groupVal g3)) ∧
    (groupVal g1 * 3600 + groupVal g2 * 60 + groupVal g3 < 2 ^ 63 →
      parse_progress input task =
        .ok (groupVal g1 * 3600 + groupVal g2 * 60 + groupVal g3)) := by
  have hmain : parse_progress input task =
      .ok (i64add (i64add (i64mul (groupVal g1) 3600) (i64mul (groupVal g2) 60))
        (groupVal g3)) := by
    unfold parse_progress
    rw [h]
  refine ⟨hmain, fun hb => ?_⟩
  obtain ⟨h1a, h1b⟩ := groupVal_bounds g1
  obtain ⟨h2a, h2b⟩ := groupVal_bounds g2
  obtain ⟨h3a, h3b⟩ := groupVal_bounds g3
  have w1 : i64mul (groupVal g1) 3600 = groupVal g1 * 3600 :=
    wrap64_eq_self _ ⟨by omega, by omega⟩
  have w2 : i64mul (groupVal g2) 60 = groupVal g2 * 60 :=
    wrap64_eq_self _ ⟨by omega, by omega⟩
  have w3 : i64add (groupVal g1 * 3600) (groupVal g2 * 60) =
      groupVal g1 * 3600 + groupVal g2 * 60 :=
    wrap64_eq_self _ ⟨by omega, by omega⟩
  have w4 : i64add (groupVal g1 * 3600 + groupVal g2 * 60) (groupVal g3) =
      groupVal g1 * 3600 + groupVal g2 * 60 + groupVal g3 :=
    wrap64_eq_self _ ⟨by omega, by omega⟩
  rw [hmain, w1, w2, w3, w4]

theorem c5_duration_value_witness :
    timeCaptures "1h2m3s" = some (some "1", some "2", some "3") ∧
    parse_progress "1h2m3s" ⟨0, 0, 0, 0, [], []⟩ = .ok 3723 := by
  refine ⟨by decide, ?_⟩
  have h := (c5_duration_value ⟨0, 0, 0, 0, [], []⟩ "1h2m3s"
    (some "1") (some "2") (some "3") (by decide)).2 (by decide)
  exact h.trans (by decide)

/-- C5 (counterexample): a digit group that overflows `i64` is not
reported as a `Parse` error; it is silently treated as 0, so
`"99999999999999999999h"` yields the amount 0 instead of the exact
`h·3600` or an error. -/
theorem c5_overflow_silently_zero :
    parse_progress "99999999999999999999h" ⟨0, 0, 0, 0, [], []⟩ = .ok 0 ∧
    (0 : Int) ≠ 99999999999999999999 * 3600 :=
  ⟨by decide, by decide⟩

/-! ### Claims C6 and C10: the percent form of `parse_progress` -/

theorem rhaNonneg_congr (a b c d : Int) (hb : 0 < b) (hd : 0 < d)
    (h : a * d = c * b) : rhaNonneg a b = rhaNonneg c d := by
  have hq : a / b = c / d := by
    calc a / b = (d * a) / (d * b) := (Int.mul_ediv_mul_of_pos a b hd).symm
    _ = (b * c) / (b * d) := by rw [mul_comm d a, mul_comm d b, h, mul_comm c b]
    _ = c / d := Int.mul_ediv_mul_of_pos c d hb
  have hr : d * (a % b) = b * (c % d) := by
    calc d * (a % b) = (d * a) % (d * b) := (Int.mul_emod_mul_of_pos a b hd).symm
    _ = (b * c) % (b * d) := by rw [mul_comm d a, mul_comm d b, h, mul_comm c b]
    _ = b * (c % d) := Int.mul_emod_mul_of_pos c d hb
  have hiff : b ≤ 2 * (a % b) ↔ d ≤ 2 * (c % d) := by
    constructor
    · intro hle
      have := mul_le_mul_of_nonneg_left hle (le_of_lt hd)
      rw [mul_left_comm, hr] at this
      exact le_of_mul_le_mul_left (by linarith [this]) hb
    · intro hle
      have := mul_le_mul_of_nonneg_left hle (le_of_lt hb)
      rw [mul_left_comm, ← hr] at this
      exact le_of_mul_le_mul_left (by linarith [this]) hd
  unfold rhaNonneg
  rw [hq, if_congr hiff rfl rfl]

theorem roundHalfAwayRat_congr (a b c d : Int) (hb : 0 < b) (hd : 0 < d)
    (h : a * d = c * b) : roundHalfAwayRat a b = roundHalfAwayRat c d := by
  unfold roundHalfAwayRat
  by_cases ha : 0 ≤ a
  · have hc : 0 ≤ c := by
      by_contra hc
      push_neg at hc
      nlinarith
    rw [if_pos ha, if_pos hc, rhaNonneg_congr a b c d hb hd h]
  · push_neg at ha
    have hc : ¬ 0 ≤ c := by
      intro hc
      nlinarith
    rw [if_neg (by omega), if_neg hc,
      rhaNonneg_congr (-a) b (-c) d hb hd (by linarith [h])]

theorem F32.den_pos (v : F32) : 0 < (v.den : Int) := by
  unfold F32.den
  split <;> positivity

theorem all_takeWhile (p : Char → Bool) (l : List Char) :
    (l.takeWhile p).all p = true := by
  induction l with
  | nil => rfl
  | cons c cs ih =>
    rw [List.takeWhile]
    cases hc : p c with
    | false => rfl
    | true => simp [hc, ih]

/-- A duration component cannot consume a digit run followed by `%`. -/
theorem durComponent_percent (x : Char) (ws : Bool) (l : List Char)
    (hx : x ≠ '%') (hds : l.takeWhile Char.isDigit ≠ [])
    (hrest : l.dropWhile Char.isDigit = ['%']) :
    durComponent x ws l = (none, l) := by
  rcases hl : l.takeWhile Char.isDigit with _ | ⟨a, ds⟩
  · exact absurd hl hds
  · simp only [durComponent, hl, hrest]
    rw [if_neg (fun hc => hx hc.symm)]

/-- A string matched by the percent regex cannot match the duration
regex: the mandatory `%` fits no duration unit. -/
theorem timeCaptures_eq_none_of_percent (s p : String)
    (h : percentCaptures s = some p) : timeCaptures s = none := by
  simp only [percentCaptures] at h
  split at h
  case isFalse => exact absurd h (by simp)
  case isTrue hc =>
    obtain ⟨hne, hrest⟩ := hc
    have hsne : s.toList ≠ [] := by
      intro h0
      apply hne
      rw [h0]
      rfl
    have d1 := durComponent_percent 'h' true s.toList (by decide) hne hrest
    have d2 := durComponent_percent 'm' true s.toList (by decide) hne hrest
    have d3 := durComponent_percent 's' false s.toList (by decide) hne hrest
    simp only [timeCaptures, d1, d2, d3]
    simp only [ite_eq_right_iff, reduceCtorEq, imp_false]
    exact hsne

/-- The capture of the percent regex is a nonempty digit string. -/
theorem percentCaptures_digits (s p : String)
    (h : percentCaptures s = some p) :
    p.toList ≠ [] ∧ p.toList.all Char.isDigit = true := by
  simp only [percentCaptures] at h
  split at h
  case isFalse => exact absurd h (by simp)
  case isTrue hc =>
    have hp : p = String.mk (s.toList.takeWhile Char.isDigit) :=
      (Option.some_injective _ h).symm
    subst hp
    refine ⟨?_, all_takeWhile Char.isDigit s.toList⟩
    intro h0
    exact hc.1 h0

/-- The percent path of `parse_progress`, in terms of the `f32`
pipeline. -/
theorem parse_progress_percent (task : Task) (s p : String)
    (h : percentCaptures s = some p) :
    parse_progress s task = .ok (f32toI64 (f32round (f32mul
      (f32FromInt task.estimated_time)
      (f32divNat (f32FromInt (digitVal p)) 100)))) := by
  have ht := timeCaptures_eq_none_of_percent s p h
  have hd := percentCaptures_digits s p h
  simp only [parse_progress, ht, h, parseF32?]
  rw [if_pos hd]

/-- C6 (amended): the percent delta is the `f32` computation
`(est as f32 * (p as f32 / 100.0)).round() as i64`; whenever that
computation is exact (and the result in `i64` range) it equals the
claimed `round(estimated_time · p / 100)` — in particular 50% and 25% of
3600 give 1800 and 900 — but the two differ once `f32` rounds. -/
theorem c6_percent_resolution :
    (∀ (task : Task) (s p : String), percentCaptures s = some p →
      parse_progress s task = .ok (f32toI64 (f32round (f32mul
        (f32FromInt task.estimated_time)
        (f32divNat (f32FromInt (digitVal p)) 100)))) ∧
      ((f32mul (f32FromInt task.estimated_time)
          (f32divNat (f32FromInt (digitVal p)) 100)).eqFrac
          (task.estimated_time * (digitVal p : Int)) 100 →
        isI64 (roundHalfAwayRat (task.estimated_time * (digitVal p : Int)) 100) →
        parse_progress s task =
          .ok (roundHalfAwayRat (task.estimated_time * (digitVal p : Int)) 100))) ∧
    parse_progress "50%" ⟨0, 0, 0, 3600, [], []⟩ = .ok 1800 ∧
    parse_progress "25%" ⟨0, 0, 0, 3600, [], []⟩ = .ok 900 := by
  refine ⟨fun task s p h => ⟨parse_progress_percent task s p h, ?_⟩,
    by decide, by decide⟩
  intro hexact hrange
  rw [parse_progress_percent task s p h]
  set v := f32mul (f32FromInt task.estimated_time)
    (f32divNat (f32FromInt (digitVal p)) 100) with hv
  have hcongr : f32round v =
      roundHalfAwayRat (task.estimated_time * (digitVal p : Int)) 100 := by
    unfold f32round
    exact roundHalfAwayRat_congr v.num v.den _ 100 (F32.den_pos v)
      (by norm_num) hexact
  rw [hcongr]
  obtain ⟨hr1, hr2⟩ := hrange
  unfold f32toI64
  rw [min_eq_right (by omega), max_eq_right (by omega)]

theorem c6_percent_resolution_witness :
    percentCaptures "50%" = some "50" ∧
    parse_progress "50%" ⟨0, 0, 0, 3600, [], []⟩ =
      .ok (roundHalfAwayRat (3600 * 50) 100) ∧
    roundHalfAwayRat ((3600 : Int) * 50) 100 = 1800 := by
  refine ⟨by decide, ?_, by decide⟩
  have h := (c6_percent_resolution.1 ⟨0, 0, 0, 3600, [], []⟩ "50%" "50"
    (by decide)).2 (by decide) (by decide)
  exact h.trans (by decide)

/-- C6 (counterexample): for a task with `estimated_time = 16777217`
(one beyond the 24-bit mantissa), `"100%"` resolves to 16777216, not the
claimed `round(estimated_time · 100 / 100) = 16777217`. -/
theorem c6_f32_rounds_large_estimate :
    parse_progress "100%" ⟨0, 0, 0, 16777217, [], []⟩ = .ok 16777216 ∧
    roundHalfAwayRat ((16777217 : Int) * 100) 100 = 16777217 ∧
    (16777216 : Int) ≠ 16777217 :=
  ⟨by decide, by decide, by decide⟩

/-- C10 (amended): the percent form is indeed not bounded above by 100 —
every digit-string percent is accepted, and on a task with
`estimated_time = 3600` and `progress = 0`, `"200%"` resolves to 7200 and
a single progress call removes the task — but the delta is the `f32`
computation, not exactly `round(estimated_time · p / 100)` in general. -/
theorem c10_percent_unbounded :
    (∀ (task : Task) (s p : String), percentCaptures s = some p →
      parse_progress s task = .ok (f32toI64 (f32round (f32mul
        (f32FromInt task.estimated_time)
        (f32divNat (f32FromInt (digitVal p)) 100))))) ∧
    percentCaptures "200%" = some "200" ∧
    parse_progress "200%" ⟨0, 0, 5, 3600, [], []⟩ = .ok 7200 ∧
    handle_progress [⟨0, 0, 5, 3600, [], []⟩] 0 "200%" = .ok [] :=
  ⟨parse_progress_percent, by decide, by decide, by decide⟩

theorem c10_percent_unbounded_witness :
    percentCaptures "150%" = some "150" ∧
    parse_progress "150%" ⟨0, 0, 0, 3600, [], []⟩ =
      .ok (f32toI64 (f32round (f32mul (f32FromInt 3600)
        (f32divNat (f32FromInt (digitVal "150")) 100)))) :=
  ⟨by decide, c10_percent_unbounded.1 ⟨0, 0, 0, 3600, [], []⟩ "150%" "150"
    (by decide)⟩

/-- C10 (counterexample): `"200%"` on `estimated_time = 33554433` yields
67108864 (the `f32` product), not the claimed
`round(estimated_time · 200 / 100) = 67108866`; and a stored task with
`progress = 0` and a negative `estimated_time` (reachable through the
add flow's wrapping `i64` arithmetic) is not removed by `"200%"`, against
the claim's "removes any task with progress ≥ 0". -/
theorem c10_f32_rounds_large_estimate :
    (parse_progress "200%" ⟨0, 0, 0, 33554433, [], []⟩ = .ok 67108864 ∧
     roundHalfAwayRat ((33554433 : Int) * 200) 100 = 67108866 ∧
     (67108864 : Int) ≠ 67108866) ∧
    (parse_progress "200%" ⟨0, 0, 0, -5, [], []⟩ = .ok (-10) ∧
     handle_progress [⟨0, 0, 0, -5, [], []⟩] 0 "200%" =
       .ok [⟨0, -10, 0, -5, [], []⟩]) :=
  ⟨⟨by decide, by decide, by decide⟩, by decide, by decide⟩

/-! ### Claim C9: id allocation and uniqueness -/

/-- The id list analogue of `maxIdOr`. -/
def idMax (l : List Int) : Int := (l.max?).getD (-1)

theorem maxIdOr_eq_idMax (tasks : List Task) :
    maxIdOr tasks = idMax (tasks.map Task.id) := rfl

theorem le_idMax_of_mem {l : List Int} {x : Int} (h : x ∈ l) : x ≤ idMax l := by
  induction l with
  | nil => cases h
  | cons y ys ih =>
    unfold idMax
    rw [List.max?_cons]
    rcases hm : ys.max? with _ | m
    · have hys : ys = [] := List.max?_eq_none_iff.mp hm
      subst hys
      rcases List.mem_singleton.mp h with rfl
      simp
    · simp only [Option.elim, Option.getD_some]
      rcases List.mem_cons.mp h with rfl | hmem
      · exact le_max_left _ _
      · have := ih hmem
        unfold idMax at this
        rw [hm, Option.getD_some] at this
        exact le_trans this (le_max_right _ _)

theorem max?_append_singleton (l : List Int) (a : Int) :
    (l ++ [a]).max? = some (l.max?.elim a (fun m => max m a)) := by
  induction l with
  | nil => rfl
  | cons y ys ih =>
    rw [List.cons_append, List.max?_cons, ih, List.max?_cons]
    rcases hm : ys.max? with _ | m
    · have hys : ys = [] := List.max?_eq_none_iff.mp hm
      subst hys
      simp
    · simp [max_assoc]

theorem idMax_append_singleton (l : List Int) (a : Int) (ha : -1 ≤ a) :
    idMax (l ++ [a]) = max (idMax l) a := by
  unfold idMax
  rw [max?_append_singleton]
  rcases hm : l.max? with _ | m
  · simpa using (max_eq_right ha).symm
  · simp

theorem idMax_range (n : Nat) :
    idMax ((List.range n).map Int.ofNat) = (n : Int) - 1 := by
  induction n with
  | zero => rfl
  | succ n ih =>
    rw [List.range_succ, List.map_append, List.map_singleton,
      idMax_append_singleton _ _ (by rw [Int.ofNat_eq_natCast]; omega), ih,
      Int.ofNat_eq_natCast, max_eq_right (by omega)]
    push_cast
    ring

theorem position?_lt_length {p : Task → Bool} {l : List Task} {i : Nat}
    (h : position? p l = some i) : i < l.length := by
  induction l generalizing i with
  | nil => cases h
  | cons x xs ih =>
    unfold position? at h
    split at h
    · cases h
      simp
    · rcases Option.map_eq_some'.mp h with ⟨j, hj, rfl⟩
      have := ih hj
      simp
      omega

theorem swapRemove_perm (l : List Task) (i : Nat) (h : i < l.length) :
    List.Perm (swapRemove l i) (l.eraseIdx i) := by
  have hne : l ≠ [] := by
    intro h0
    rw [h0] at h
    simp at h
  obtain ⟨F, a, rfl⟩ : ∃ F a, l = F ++ [a] :=
    ⟨l.dropLast, l.getLast hne, (List.dropLast_append_getLast hne).symm⟩
  have hget : (F ++ [a]).getLast? = some a := by simp
  have hlen : i < F.length + 1 := by
    simpa using h
  simp only [swapRemove, hget]
  rcases Nat.lt_or_ge i F.length with hi | hi
  · rw [List.set_append, if_pos hi, List.dropLast_concat,
      List.set_eq_take_append_cons_drop, if_pos hi,
      List.eraseIdx_eq_take_drop_succ,
      List.take_append_of_le_length (le_of_lt hi),
      List.drop_append_of_le_length (by omega)]
    exact List.Perm.append_left _ (List.perm_append_singleton a _).symm
  · have hieq : i = F.length := by omega
    subst hieq
    rw [List.set_append, if_neg (lt_irrefl _), Nat.sub_self,
      List.set_cons_zero, List.dropLast_concat,
      List.eraseIdx_eq_take_drop_succ, List.take_left]
    have hdrop : (F ++ [a]).drop (F.length + 1) = [] := by
      apply List.drop_eq_nil_of_le
      simp
    rw [hdrop, List.append_nil]

/-- The two public mutators the uniqueness property quantifies over. -/
inductive Op where
  | addOp : Int → Int → List Nat → List Nat → Op
  | removeOp : Int → Op

/-- Run one operation against the store; a failing remove (unknown id)
leaves the store unchanged. -/
def applyOp (ts : List Task) : Op → List Task
  | .addOp d e n ds => handle_add ts d e n ds
  | .removeOp tid =>
    match handle_remove ts tid with
    | .ok ts' => ts'
    | .error _ => ts

/-- The number of add operations in a sequence. -/
def countAdds : List Op → Nat
  | [] => 0
  | .addOp _ _ _ _ :: rest => countAdds rest + 1
  | .removeOp _ :: rest => countAdds rest

theorem handle_add_ids (ts : List Task) (d e : Int) (n ds : List Nat) :
    (handle_add ts d e n ds).map Task.id =
      ts.map Task.id ++ [i64add (maxIdOr ts) 1] := by
  unfold handle_add
  rw [List.map_append]
  rfl

theorem idMax_mem {l : List Int} (h : l ≠ []) : idMax l ∈ l := by
  induction l with
  | nil => exact absurd rfl h
  | cons y ys ih =>
    unfold idMax
    rw [List.max?_cons]
    rcases hm : ys.max? with _ | m
    · have hys : ys = [] := List.max?_eq_none_iff.mp hm
      subst hys
      simp
    · have hys : ys ≠ [] := by
        intro h0
        rw [h0] at hm
        cases hm
      have hmem : m ∈ ys := by
        have := ih hys
        unfold idMax at this
        rwa [hm, Option.getD_some] at this
      simp only [Option.elim, Option.getD_some]
      rcases max_choice y m with hmax | hmax <;> rw [hmax]
      · exact List.mem_cons_self y ys
      · exact List.mem_cons_of_mem y hmem

theorem neg_one_le_idMax {l : List Int} (h : ∀ x ∈ l, 0 ≤ x) :
    -1 ≤ idMax l := by
  rcases eq_or_ne l [] with rfl | hne
  · exact le_refl _
  · have := h _ (idMax_mem hne)
    omega

theorem idMax_le_of_forall_le {l : List Int} {b : Int} (hb : -1 ≤ b)
    (h : ∀ x ∈ l, x ≤ b) : idMax l ≤ b := by
  rcases eq_or_ne l [] with rfl | hne
  · exact hb
  · exact h _ (idMax_mem hne)

/-- The invariant carried through an add/remove sequence: stored ids are
distinct, nonnegative, and bounded by the number of adds so far. -/
def GoodStore (ts : List Task) (k : Nat) : Prop :=
  (ts.map Task.id).Nodup ∧ (∀ x ∈ ts.map Task.id, 0 ≤ x) ∧
  idMax (ts.map Task.id) ≤ (k : Int) - 1

theorem goodStore_add (ts : List Task) (k : Nat) (d e : Int)
    (n ds : List Nat) (hg : GoodStore ts k) (hk : k + 1 ≤ 2 ^ 63) :
    GoodStore (handle_add ts d e n ds) (k + 1) := by
  obtain ⟨hnd, hpos, hmax⟩ := hg
  have hneg1 : -1 ≤ idMax (ts.map Task.id) := neg_one_le_idMax hpos
  have hwrap : i64add (maxIdOr ts) 1 = idMax (ts.map Task.id) + 1 := by
    rw [maxIdOr_eq_idMax]
    exact wrap64_eq_self _ ⟨by omega, by omega⟩
  refine ⟨?_, ?_, ?_⟩
  · rw [handle_add_ids, hwrap, List.nodup_append]
    refine ⟨hnd, List.nodup_singleton _, fun x hx hmem => ?_⟩
    rcases List.mem_singleton.mp hmem with rfl
    have := le_idMax_of_mem hx
    omega
  · rw [handle_add_ids, hwrap]
    intro x hx
    rcases List.mem_append.mp hx with hx | hx
    · exact hpos x hx
    · rcases List.mem_singleton.mp hx with rfl
      omega
  · rw [handle_add_ids, hwrap,
      idMax_append_singleton _ _ (by omega), max_eq_right (by omega)]
    push_cast
    omega

theorem goodStore_remove (ts : List Task) (k : Nat) (tid : Int)
    (hg : GoodStore ts k) : GoodStore (applyOp ts (.removeOp tid)) k := by
  obtain ⟨hnd, hpos, hmax⟩ := hg
  rcases hp : position? (fun t => t.id == tid) ts with _ | i
  · simp only [applyOp, handle_remove, hp]
    exact ⟨hnd, hpos, hmax⟩
  · simp only [applyOp, handle_remove, hp]
    have hi := position?_lt_length hp
    have hperm := (swapRemove_perm ts i hi).map Task.id
    have hsub : ∀ x ∈ (swapRemove ts i).map Task.id, x ∈ ts.map Task.id := by
      intro x hx
      exact ((List.eraseIdx_sublist ts i).map Task.id).subset
        (hperm.mem_iff.mp hx)
    refine ⟨?_, fun x hx => hpos x (hsub x hx), ?_⟩
    · exact hperm.nodup_iff.mpr
        (hnd.sublist ((List.eraseIdx_sublist ts i).map Task.id))
    · exact idMax_le_of_forall_le (by omega)
        (fun x hx => le_trans (le_idMax_of_mem (hsub x hx)) hmax)

theorem goodStore_ops : ∀ (ops : List Op) (ts : List Task) (k : Nat),
    GoodStore ts k → k + countAdds ops ≤ 2 ^ 63 →
    GoodStore (ops.foldl applyOp ts) (k + countAdds ops) := by
  intro ops
  induction ops with
  | nil =>
    intro ts k hg _
    simpa [countAdds] using hg
  | cons op rest ih =>
    intro ts k hg hbound
    rw [List.foldl_cons]
    cases op with
    | addOp d e n ds =>
      simp only [countAdds] at hbound ⊢
      have h1 : GoodStore (applyOp ts (.addOp d e n ds)) (k + 1) :=
        goodStore_add ts k d e n ds hg (by omega)
      have h2 := ih _ (k + 1) h1 (by omega)
      rw [show k + (countAdds rest + 1) = k + 1 + countAdds rest by omega]
      exact h2
    | removeOp tid =>
      simp only [countAdds] at hbound ⊢
      exact ih _ k (goodStore_remove ts k tid hg) hbound

/-- C9 (counterexample): the new id is `max_id + 1` in wrapping `i64`
arithmetic: on a store whose maximum id is `i64::MAX` (a constructible
file), `add` assigns `i64::MIN`, not `max + 1`. -/
theorem c9_add_wraps_at_i64_max :
    handle_add [⟨9223372036854775807, 0, 0, 0, [], []⟩] 0 0 [] [] =
      [⟨9223372036854775807, 0, 0, 0, [], []⟩,
       ⟨-9223372036854775808, 0, 0, 0, [], []⟩] ∧
    (-9223372036854775808 : Int) ≠ 9223372036854775807 + 1 :=
  ⟨by decide, by decide⟩

/-- C9 (amended): `add` assigns id `(maximum existing id, or −1) + 1` in
wrapping `i64` arithmetic — equal to `max + 1` whenever that sum is in
`i64` range — with initial progress 0; after `N ≤ 2^63` successive adds
on a fresh store the stored ids are exactly `0, …, N−1`; and after any
sequence of add/remove operations containing at most `2^63` adds, no two
stored tasks share an id. -/
theorem c9_id_allocation :
    (∀ (tasks : List Task) (d e : Int) (n ds : List Nat),
      isI64 (maxIdOr tasks + 1) →
      handle_add tasks d e n ds =
        tasks ++ [{ id := maxIdOr tasks + 1, progress := 0, deadline := d,
                    estimated_time := e, name := n, description := ds }]) ∧
    (∀ inputs : List (Int × Int × List Nat × List Nat),
      inputs.length ≤ 2 ^ 63 →
      ((inputs.foldl (fun ts i => handle_add ts i.1 i.2.1 i.2.2.1 i.2.2.2)
          []).map Task.id) =
        (List.range inputs.length).map Int.ofNat) ∧
    (∀ ops : List Op, countAdds ops ≤ 2 ^ 63 →
      ((ops.foldl applyOp []).map Task.id).Nodup) := by
  refine ⟨?_, ?_, ?_⟩
  · intro tasks d e n ds hrange
    unfold handle_add
    rw [show i64add (maxIdOr tasks) 1 = maxIdOr tasks + 1 from
      wrap64_eq_self _ hrange]
  · have aux : ∀ (inputs : List (Int × Int × List Nat × List Nat)) (n : Nat)
        (ts : List Task), ts.map Task.id = (List.range n).map Int.ofNat →
        n + inputs.length ≤ 2 ^ 63 →
        ((inputs.foldl (fun ts i => handle_add ts i.1 i.2.1 i.2.2.1 i.2.2.2)
            ts).map Task.id) =
          (List.range (n + inputs.length)).map Int.ofNat := by
      intro inputs
      induction inputs with
      | nil => intro n ts hts _; simpa using hts
      | cons i is ih =>
        intro n ts hts hbound
        rw [List.foldl_cons]
        have hn : n ≤ 2 ^ 63 - 1 := by
          rw [List.length_cons] at hbound
          omega
        have hwrap : i64add ((n : Int) - 1) 1 = (n : Int) := by
          unfold i64add
          rw [show (n : Int) - 1 + 1 = (n : Int) by ring]
          exact wrap64_eq_self _ ⟨by omega, by omega⟩
        have hstep : (handle_add ts i.1 i.2.1 i.2.2.1 i.2.2.2).map Task.id =
            (List.range (n + 1)).map Int.ofNat := by
          rw [handle_add_ids, hts, maxIdOr_eq_idMax, hts, idMax_range, hwrap,
            List.range_succ, List.map_append, List.map_singleton]
          norm_num
        have := ih (n + 1) _ hstep (by
          rw [List.length_cons] at hbound
          omega)
        rw [List.length_cons, show n + (is.length + 1) = n + 1 + is.length by omega]
        exact this
    intro inputs hlen
    simpa using aux inputs 0 [] rfl (by simpa using hlen)
  · intro ops hops
    have hinit : GoodStore [] 0 := by
      refine ⟨by simp, by simp, ?_⟩
      simp [idMax]
    have := goodStore_ops ops [] 0 hinit (by simpa using hops)
    exact this.1

theorem c9_id_allocation_witness :
    isI64 (maxIdOr [(⟨5, 0, 0, 0, [], []⟩ : Task)] + 1) ∧
    handle_add [(⟨5, 0, 0, 0, [], []⟩ : Task)] 7 8 [1] [2] =
      [⟨5, 0, 0, 0, [], []⟩, ⟨6, 0, 7, 8, [1], [2]⟩] ∧
    ([((1 : Int), (2 : Int), ([] : List Nat), ([] : List Nat)),
       (3, 4, [], [])].length ≤ 2 ^ 63) ∧
    (([((1 : Int), (2 : Int), ([] : List Nat), ([] : List Nat)),
        (3, 4, [], [])].foldl
        (fun ts i => handle_add ts i.1 i.2.1 i.2.2.1 i.2.2.2) []).map Task.id =
      (List.range 2).map Int.ofNat) ∧
    countAdds [Op.addOp 0 0 [] [], Op.addOp 1 1 [] [], Op.removeOp 0] ≤ 2 ^ 63 ∧
    (([Op.addOp 0 0 [] [], Op.addOp 1 1 [] [], Op.removeOp 0].foldl
        applyOp []).map Task.id).Nodup := by
  refine ⟨by decide, ?_, by decide, ?_, by decide, ?_⟩
  · exact (c9_id_allocation.1 [⟨5, 0, 0, 0, [], []⟩] 7 8 [1] [2]
      (by decide)).trans (by decide)
  · exact c9_id_allocation.2.1
      [((1 : Int), (2 : Int), ([] : List Nat), ([] : List Nat)),
       (3, 4, [], [])] (by decide)
  · exact c9_id_allocation.2.2
      [Op.addOp 0 0 [] [], Op.addOp 1 1 [] [], Op.removeOp 0] (by decide)

end TodoCli
